import Mathlib

/-!
Verification of the hashtag-generator core (`generator.py`, with the file
layout of `bot.py`) against its natural-language specification.

Strings are modelled as `List Char` (Python `str` values are sequences of
Unicode code points).  Python's set-based deduplication is modelled as a
list with membership-checked insertion: the claims about `generate` are
order-insensitive (set semantics), so insertion order is a faithful
representative of Python's unspecified set iteration order.
-/

namespace Chatbot

/-- A Python string: a list of Unicode characters. -/
abbrev Str := List Char

/-- Whitespace test used by Python's `str.strip` and by the regex class
`\s` in Unicode mode: ASCII whitespace (space, TAB, LF, VT, FF, CR),
the C1 separators 0x1c-0x1f, NEL, NBSP and the Unicode space separators. -/
def pyIsSpace (c : Char) : Bool :=
  c.toNat == 0x20 || c.toNat == 0x9 || c.toNat == 0xa || c.toNat == 0xd ||
  c.toNat == 0x0b || c.toNat == 0x0c ||
  (decide (0x1c ≤ c.toNat) && decide (c.toNat ≤ 0x1f)) ||
  c.toNat == 0x85 || c.toNat == 0xa0 || c.toNat == 0x1680 ||
  (decide (0x2000 ≤ c.toNat) && decide (c.toNat ≤ 0x200a)) ||
  c.toNat == 0x2028 || c.toNat == 0x2029 || c.toNat == 0x202f ||
  c.toNat == 0x205f || c.toNat == 0x3000

/-- Python `str.lower` / `re.IGNORECASE` case folding, modelled on the
character ranges this program works with: ASCII `A`-`Z` and the Russian
Cyrillic letters `А`-`Я` map down by 0x20, `Ё` maps to `ё`; every other
character is left unchanged. -/
def pyLower (c : Char) : Char :=
  if decide (0x41 ≤ c.toNat) && decide (c.toNat ≤ 0x5a) then Char.ofNat (c.toNat + 0x20)
  else if decide (0x410 ≤ c.toNat) && decide (c.toNat ≤ 0x42f) then Char.ofNat (c.toNat + 0x20)
  else if c.toNat == 0x401 then Char.ofNat 0x451
  else c

/-- Remove leading whitespace (left half of Python `str.strip`). -/
def lstrip (l : Str) : Str := l.dropWhile pyIsSpace

/-- Remove trailing whitespace (right half of Python `str.strip`). -/
def rstrip (l : Str) : Str := (l.reverse.dropWhile pyIsSpace).reverse

/-- Python `str.strip()`: remove whitespace from both ends. -/
def strip (l : Str) : Str := rstrip (lstrip l)

/-- Python `s.split(sep)` for a one-character separator: split at every
occurrence of the separator, keeping empty pieces (`"".split(",") == [""]`). -/
def splitOnChar (sep : Char) : Str → List Str
  | [] => [[]]
  | c :: rest =>
    if c == sep then [] :: splitOnChar sep rest
    else
      match splitOnChar sep rest with
      | [] => [[c]]
      | t :: ts => (c :: t) :: ts

/-- `re.sub(r'\s+', ' ', text)`: collapse every maximal run of whitespace
characters into a single space.  The boolean records whether the previous
character was whitespace (i.e. whether we are inside a run that has
already produced its space). -/
def collapseAux : Bool → Str → Str
  | _, [] => []
  | prevSpace, c :: rest =>
    if pyIsSpace c then
      if prevSpace then collapseAux true rest
      else ' ' :: collapseAux true rest
    else c :: collapseAux false rest

/-- `re.sub(r'\s+', ' ', text)` over a whole string. -/
def collapse (l : Str) : Str := collapseAux false l

/-- Line 91 of `generator.py`: `re.sub(r'\s+', ' ', text.strip())`. -/
def normalize (text : Str) : Str := collapse (strip text)

/-- Python `sep.join(parts)` (generic so that it can also join line lists). -/
def joinSep {α : Type} (sep : List α) : List (List α) → List α
  | [] => []
  | [x] => x
  | x :: y :: rest => x ++ sep ++ joinSep sep (y :: rest)

/-- Decimal rendering of a count, as Python string interpolation of an int. -/
def natToChars (n : Nat) : Str := (Nat.repr n).toList

/-- Insertion into the list modelling Python's `set`: add the element only
if it is not already present. -/
def insertUniq (x : Str) (l : List Str) : List Str :=
  if x ∈ l then l else l ++ [x]

/-- The inner-loop body of `generate_combinations` (generator.py lines
25-32): strip the suffix, skip it when empty, otherwise lowercase
`#root+suffix` and add it to the set. -/
def addTag (root : Str) (acc : List Str) (suffix0 : Str) : List Str :=
  let suffix := strip suffix0
  if suffix.isEmpty then acc
  else insertUniq (('#' :: (root ++ suffix)).map pyLower) acc

/-- The outer-loop body of `generate_combinations` (generator.py lines
20-32): strip the root, skip it when empty, otherwise run the inner loop
over all suffixes. -/
def addRoot (suffixes : List Str) (acc : List Str) (root0 : Str) : List Str :=
  let root := strip root0
  if root.isEmpty then acc
  else suffixes.foldl (addTag root) acc

/-- `generate_combinations` (generator.py lines 7-34): for every root and
suffix, strip both, skip empty entries, form `#root+suffix`, lowercase it
and insert it into the deduplicating collection. -/
def generate_combinations (roots suffixes : List Str) : List Str :=
  roots.foldl (addRoot suffixes) []

/-- Contiguous chunks of `n + 1` elements (the successor argument makes the
recursion well-founded); mirrors the slices `hashtags[i:i+size]` taken by
the loop `for i in range(0, len(hashtags), size)` for a positive step. -/
def chunksAux (n : Nat) : List Str → List (List Str)
  | [] => []
  | x :: xs => ((x :: xs).take (n + 1)) :: chunksAux n ((x :: xs).drop (n + 1))
termination_by l => l.length
decreasing_by
  simp [List.drop]
  omega

/-- `split_into_blocks` (generator.py lines 37-51).  `size` is a Python int:
`range(0, len, 0)` raises `ValueError` (modelled as `none`); for a negative
step `range(0, len, size)` is empty, so the loop appends no block; for a
positive step the loop takes the successive slices `hashtags[i:i+size]`. -/
def split_into_blocks (hashtags : List Str) (size : Int) : Option (List (List Str)) :=
  if size = 0 then none
  else if size < 0 then some []
  else some (chunksAux (size.toNat - 1) hashtags)

/-- `format_block` (generator.py lines 54-64): `" ".join(block)`. -/
def format_block (block : List Str) : Str := joinSep [' '] block

/-! ### The input parser (`parse_input`, generator.py lines 67-113)

`parse_input` normalizes whitespace and then runs two `re.search` calls:

* `(?:корни|roots)\s*:\s*([^:]+?)(?=\s*(?:суффиксы|suffixes)\s*:|$)`
* `(?:суффиксы|suffixes)\s*:\s*(.+?)$`

both with `re.IGNORECASE`.  The two patterns are modelled operationally:
`re.search` scans start positions left to right and at each position runs
the backtracking matcher.  In these patterns every `\s*` is followed by a
character that is never whitespace (a colon or a label letter), except the
`\s*` directly before the capture groups; for that one, backtracking below
maximal munch only ever re-offers whitespace characters to the capture, so
on whitespace-normalized input (single-space runs, no trailing whitespace,
no newline — which is how `parse_input` always invokes the patterns) the
engine is equivalent to the maximal-munch scanner defined here, with the
single extra case of the roots pattern accepting a one-space capture when
the lazy capture fails but the suffixes lookahead holds right after the
space (modelled in `matchRootsAt`).  The lazy quantifiers take the
shortest width whose continuation matches, which is exactly the
first-success recursion of `lazyCapture`. -/

/-- The Russian roots label, lowercase (`корни`). -/
def rootsRu : Str := ['к', 'о', 'р', 'н', 'и']

/-- The English roots label, lowercase (`roots`). -/
def rootsEn : Str := ['r', 'o', 'o', 't', 's']

/-- The Russian suffixes label, lowercase (`суффиксы`). -/
def suffRu : Str := ['с', 'у', 'ф', 'ф', 'и', 'к', 'с', 'ы']

/-- The English suffixes label, lowercase (`suffixes`). -/
def suffEn : Str := ['s', 'u', 'f', 'f', 'i', 'x', 'e', 's']

/-- Case-insensitive literal match: if `pyLower` of the text starts with the
(lowercase) label, return the remainder of the text. -/
def stripLabel : Str → Str → Option Str
  | [], l => some l
  | _ :: _, [] => none
  | p :: ps, c :: cs => if pyLower c == p then stripLabel ps cs else none

/-- `(?:суффиксы|suffixes)\s*:` tested at one position: one of the suffixes
labels (case-insensitively), then optional whitespace, then a colon. -/
def occSuffixAt (l : Str) : Bool :=
  match stripLabel suffRu l with
  | some l2 => (l2.dropWhile pyIsSpace).head? == some ':'
  | none =>
    match stripLabel suffEn l with
    | some l2 => (l2.dropWhile pyIsSpace).head? == some ':'
    | none => false

/-- The lookahead `(?=\s*(?:суффиксы|suffixes)\s*:|$)` tested at one
position (on normalized input, `$` holds exactly at the end). -/
def lookaheadOk (l : Str) : Bool :=
  occSuffixAt (l.dropWhile pyIsSpace) || l.isEmpty

/-- The lazy group `([^:]+?)` followed by the suffixes/end lookahead: take
at least one non-colon character and stop at the first position where the
lookahead succeeds; fail if a colon is reached first. -/
def lazyCapture : Str → Option Str
  | [] => none
  | c :: rest =>
    if c = ':' then none
    else if lookaheadOk rest then some [c]
    else (lazyCapture rest).map (c :: ·)

/-- `(?:корни|roots)` tested at one position (the two alternatives begin
with distinct letters, so the alternation order is immaterial). -/
def rootsTail (l : Str) : Option Str :=
  match stripLabel rootsRu l with
  | some l1 => some l1
  | none => stripLabel rootsEn l

/-- The part of the roots pattern after `\s*:` at one position: maximal
munch for the second `\s*`, then the lazy capture; when the capture fails
and at least one whitespace character was munched, backtracking re-offers
the last munched space to `[^:]+?`, which succeeds exactly when the
lookahead already holds at the maximal-munch position — a single-space
capture. -/
def afterColon (l3 : Str) : Option Str :=
  match lazyCapture (l3.dropWhile pyIsSpace) with
  | some cap => some cap
  | none =>
    match l3 with
    | [] => none
    | c2 :: _ =>
      if pyIsSpace c2 && lookaheadOk (l3.dropWhile pyIsSpace) then some [c2] else none

/-- The roots pattern after its label at one position: `\s*` (maximal
munch — the next pattern character `:` is never whitespace), then the
colon, then the capture. -/
def afterLabel (l1 : Str) : Option Str :=
  match l1.dropWhile pyIsSpace with
  | [] => none
  | c :: l3 => if c = ':' then afterColon l3 else none

def matchRootsAt (l : Str) : Option Str :=
  match rootsTail l with
  | none => none
  | some l1 => afterLabel l1

/-- `re.search` for the roots pattern: try every start position from the
left and return the first capture. -/
def findRoots : Str → Option Str
  | [] => none
  | c :: rest =>
    match matchRootsAt (c :: rest) with
    | some cap => some cap
    | none => findRoots rest

/-- The whole suffixes pattern `(?:суффиксы|suffixes)\s*:\s*(.+?)$` tested
at one position: on normalized input (no newline, no trailing whitespace)
the lazy `(.+?)$` captures everything to the end of the string and needs
at least one character. -/
def matchSuffixAt (l : Str) : Option Str :=
  match stripLabel suffRu l <|> stripLabel suffEn l with
  | none => none
  | some l1 =>
    match l1.dropWhile pyIsSpace with
    | [] => none
    | c :: l3 =>
      if c = ':' then
        let rest := l3.dropWhile pyIsSpace
        if rest.isEmpty then none else some rest
      else none

/-- `re.search` for the suffixes pattern. -/
def findSuffixes : Str → Option Str
  | [] => none
  | c :: rest =>
    match matchSuffixAt (c :: rest) with
    | some cap => some cap
    | none => findSuffixes rest

/-- Lines 100-101 / 110-111 of `generator.py`:
`[r.strip() for r in captured.strip().split(",") if r.strip()]`. -/
def tokensOf (seg : Str) : List Str :=
  ((splitOnChar ',' (strip seg)).map strip).filter (fun t => !t.isEmpty)

/-- `parse_input` (generator.py lines 67-113): normalize, search both
patterns, tokenize each captured group, defaulting to the empty list when
a pattern does not match. -/
def parse_input (text : Str) : List Str × List Str :=
  let t := normalize text
  (match findRoots t with
   | some cap => tokensOf cap
   | none => [],
   match findSuffixes t with
   | some cap => tokensOf cap
   | none => [])

/-- The last character is not whitespace (vacuously true for the empty
string): the key invariant of whitespace-normalized text that makes the
maximal-munch reading of the two patterns exact. -/
def endsOk (l : Str) : Bool :=
  match l.getLast? with
  | some c => !pyIsSpace c
  | none => true

/-! ### Spec-side definitions

These follow the words of the specification, for the refinement claims
(C1 and C8); they are compared against the source-derived definitions
above. -/

/-- The segment of the text before the first position at which a suffixes
label followed by a colon occurs (the whole text if there is none) —
the claim's "all text ... up to (but not including) the next occurrence
of a suffixes label followed by a colon, or up to the end". -/
def takeUntilSuffOcc : Str → Str
  | [] => []
  | c :: rest => if occSuffixAt (c :: rest) then [] else c :: takeUntilSuffOcc rest

/-- The remainder of the text from the first suffixes-label-colon
occurrence on (empty if there is none). -/
def dropUntilSuffOcc : Str → Str
  | [] => []
  | c :: rest => if occSuffixAt (c :: rest) then c :: rest else dropUntilSuffOcc rest

/-- Modelled from the spec's words for claim C1: at one position, a roots
label followed by a colon captures as the roots segment all text after
the colon up to the next suffixes-label-colon occurrence or the end. -/
def specAfterLabel (l1 : Str) : Option Str :=
  match l1.dropWhile pyIsSpace with
  | [] => none
  | c :: l3 => if c = ':' then some (takeUntilSuffOcc l3) else none

/-- Modelled from the spec's words for claim C1: the capture at one
position whose roots label matches. -/
def specMatchRootsAt (l : Str) : Option Str :=
  match rootsTail l with
  | none => none
  | some l1 => specAfterLabel l1

/-- Modelled from the spec's words for claim C1: the roots segment of the
first roots-label-colon occurrence in the text, if any. -/
def specRootsSegment : Str → Option Str
  | [] => none
  | c :: rest =>
    match specMatchRootsAt (c :: rest) with
    | some seg => some seg
    | none => specRootsSegment rest

/-! ### The downloadable file (`handle_input`, bot.py lines 135-146) -/

/-- One block section of the TXT file: `f"Блок {i}:\n{format_block(block)}"`. -/
def blockSection (i : Nat) (b : List Str) : Str :=
  "Блок ".toList ++ natToChars i ++ [':', '\n'] ++ format_block b

/-- bot.py lines 135-138: `"\n\n".join(...)` over the enumerated blocks. -/
def all_hashtags_text (blocks : List (List Str)) : Str :=
  joinSep ['\n', '\n'] ((blocks.enumFrom 1).map fun p => blockSection p.1 p.2)

/-- bot.py lines 140-146: the downloadable file content (before UTF-8
encoding). -/
def file_content (roots suffixes : List Str) (hashtags : List Str)
    (blocks : List (List Str)) : Str :=
  "Хэштеги (всего: ".toList ++ natToChars hashtags.length ++ [')', '\n'] ++
  "Корни: ".toList ++ joinSep [',', ' '] roots ++ ['\n'] ++
  "Суффиксы: ".toList ++ joinSep [',', ' '] suffixes ++ ['\n'] ++
  List.replicate 40 '=' ++ ['\n', '\n'] ++
  all_hashtags_text blocks

/-- Modelled from the spec's words for claim C8 (amended): the file as a
list of lines — header with the total count, roots line, suffixes line, a
separator of forty `=`, a blank line, then for each block a `Блок <i>:`
line and the block's formatted string, with one blank line between
consecutive blocks. -/
def specFileLines (roots suffixes : List Str) (hashtags : List Str)
    (blocks : List (List Str)) : List Str :=
  ["Хэштеги (всего: ".toList ++ natToChars hashtags.length ++ [')'],
   "Корни: ".toList ++ joinSep [',', ' '] roots,
   "Суффиксы: ".toList ++ joinSep [',', ' '] suffixes,
   List.replicate 40 '=',
   []] ++
  joinSep [[]] ((blocks.enumFrom 1).map fun p =>
    ["Блок ".toList ++ natToChars p.1 ++ [':'], format_block p.2])

/-- The layout asserted verbatim by claim C8, with the literal line header
`Block <i>:`; used only to exhibit the counterexample. -/
def specFileLinesEn (roots suffixes : List Str) (hashtags : List Str)
    (blocks : List (List Str)) : List Str :=
  ["Хэштеги (всего: ".toList ++ natToChars hashtags.length ++ [')'],
   "Корни: ".toList ++ joinSep [',', ' '] roots,
   "Суффиксы: ".toList ++ joinSep [',', ' '] suffixes,
   List.replicate 40 '=',
   []] ++
  joinSep [[]] ((blocks.enumFrom 1).map fun p =>
    ["Block ".toList ++ natToChars p.1 ++ [':'], format_block p.2])

/-! ## Lemmas about the combination generator -/

theorem mem_insertUniq {x y : Str} {l : List Str} :
    x ∈ insertUniq y l ↔ x ∈ l ∨ x = y := by
  unfold insertUniq
  split
  · next h =>
    constructor
    · exact Or.inl
    · rintro (hx | rfl)
      · exact hx
      · exact h
  · simp

theorem nodup_insertUniq {y : Str} {l : List Str} (h : l.Nodup) :
    (insertUniq y l).Nodup := by
  unfold insertUniq
  split
  · exact h
  · next hy => simp [List.nodup_append, h, hy]

theorem addTag_of_empty {r s : Str} (acc : List Str) (hs : strip s = []) :
    addTag r acc s = acc := by
  unfold addTag
  simp [List.isEmpty_iff, hs]

theorem addTag_of_ne {r s : Str} (acc : List Str) (hs : strip s ≠ []) :
    addTag r acc s = insertUniq (('#' :: (r ++ strip s)).map pyLower) acc := by
  unfold addTag
  dsimp only
  rw [if_neg (by simp [List.isEmpty_iff, hs])]

theorem addRoot_of_empty {r : Str} (S : List Str) (acc : List Str)
    (hr : strip r = []) : addRoot S acc r = acc := by
  unfold addRoot
  simp [List.isEmpty_iff, hr]

theorem addRoot_of_ne {r : Str} (S : List Str) (acc : List Str)
    (hr : strip r ≠ []) : addRoot S acc r = S.foldl (addTag (strip r)) acc := by
  unfold addRoot
  dsimp only
  rw [if_neg (by simp [List.isEmpty_iff, hr])]

theorem mem_foldl_addTag {r : Str} (S : List Str) :
    ∀ (acc : List Str) (x : Str),
      x ∈ S.foldl (addTag r) acc ↔
        x ∈ acc ∨ ∃ s ∈ S, strip s ≠ [] ∧
          x = ('#' :: (r ++ strip s)).map pyLower := by
  induction S with
  | nil => simp
  | cons s S ih =>
    intro acc x
    simp only [List.foldl_cons]
    rw [ih]
    by_cases hs : strip s = []
    · rw [addTag_of_empty acc hs]
      constructor
      · rintro (h | ⟨s', hs', hne, hx⟩)
        · exact Or.inl h
        · exact Or.inr ⟨s', List.mem_cons_of_mem _ hs', hne, hx⟩
      · rintro (h | ⟨s', hs', hne, hx⟩)
        · exact Or.inl h
        · rcases List.mem_cons.mp hs' with rfl | hs'
          · exact absurd hs hne
          · exact Or.inr ⟨s', hs', hne, hx⟩
    · rw [addTag_of_ne acc hs, mem_insertUniq]
      constructor
      · rintro ((h | rfl) | ⟨s', hs', hne, hx⟩)
        · exact Or.inl h
        · exact Or.inr ⟨s, List.mem_cons_self s S, hs, rfl⟩
        · exact Or.inr ⟨s', List.mem_cons_of_mem _ hs', hne, hx⟩
      · rintro (h | ⟨s', hs', hne, hx⟩)
        · exact Or.inl (Or.inl h)
        · rcases List.mem_cons.mp hs' with rfl | hs'
          · exact Or.inl (Or.inr hx)
          · exact Or.inr ⟨s', hs', hne, hx⟩


theorem nodup_foldl_addTag {r : Str} (S : List Str) :
    ∀ acc : List Str, acc.Nodup → (S.foldl (addTag r) acc).Nodup := by
  induction S with
  | nil => exact fun acc h => h
  | cons s S ih =>
    intro acc h
    simp only [List.foldl_cons]
    apply ih
    by_cases hs : strip s = []
    · rw [addTag_of_empty acc hs]
      exact h
    · rw [addTag_of_ne acc hs]
      exact nodup_insertUniq h

theorem mem_foldl_addRoot (S : List Str) (R : List Str) :
    ∀ (acc : List Str) (x : Str),
      x ∈ R.foldl (addRoot S) acc ↔
        x ∈ acc ∨ ∃ r ∈ R, strip r ≠ [] ∧ ∃ s ∈ S, strip s ≠ [] ∧
          x = ('#' :: (strip r ++ strip s)).map pyLower := by
  induction R with
  | nil => simp
  | cons r R ih =>
    intro acc x
    simp only [List.foldl_cons]
    rw [ih]
    by_cases hr : strip r = []
    · rw [addRoot_of_empty S acc hr]
      constructor
      · rintro (h | ⟨r', hr', hne, rest⟩)
        · exact Or.inl h
        · exact Or.inr ⟨r', List.mem_cons_of_mem _ hr', hne, rest⟩
      · rintro (h | ⟨r', hr', hne, rest⟩)
        · exact Or.inl h
        · rcases List.mem_cons.mp hr' with rfl | hr'
          · exact absurd hr hne
          · exact Or.inr ⟨r', hr', hne, rest⟩
    · rw [addRoot_of_ne S acc hr, mem_foldl_addTag]
      constructor
      · rintro ((h | ⟨s', hs', hsne, hx⟩) | ⟨r', hr', hne, rest⟩)
        · exact Or.inl h
        · exact Or.inr ⟨r, List.mem_cons_self r R, hr, s', hs', hsne, hx⟩
        · exact Or.inr ⟨r', List.mem_cons_of_mem _ hr', hne, rest⟩
      · rintro (h | ⟨r', hr', hne, s', hs', hsne, hx⟩)
        · exact Or.inl (Or.inl h)
        · rcases List.mem_cons.mp hr' with rfl | hr'
          · exact Or.inl (Or.inr ⟨s', hs', hsne, hx⟩)
          · exact Or.inr ⟨r', hr', hne, s', hs', hsne, hx⟩

theorem mem_generate (R S : List Str) (x : Str) :
    x ∈ generate_combinations R S ↔
      ∃ r ∈ R, strip r ≠ [] ∧ ∃ s ∈ S, strip s ≠ [] ∧
        x = ('#' :: (strip r ++ strip s)).map pyLower := by
  unfold generate_combinations
  rw [mem_foldl_addRoot]
  simp

theorem nodup_generate (R S : List Str) : (generate_combinations R S).Nodup := by
  unfold generate_combinations
  have h : ∀ (R' : List Str) (acc : List Str), acc.Nodup →
      (R'.foldl (addRoot S) acc).Nodup := by
    intro R'
    induction R' with
    | nil => exact fun acc h => h
    | cons r R' ih =>
      intro acc hacc
      simp only [List.foldl_cons]
      apply ih
      by_cases hr : strip r = []
      · rw [addRoot_of_empty S acc hr]
        exact hacc
      · rw [addRoot_of_ne S acc hr]
        exact nodup_foldl_addTag S acc hacc
  exact h R [] List.nodup_nil

theorem generate_eq_nil_iff (R S : List Str) :
    generate_combinations R S = [] ↔
      (∀ r ∈ R, strip r = []) ∨ (∀ s ∈ S, strip s = []) := by
  rw [List.eq_nil_iff_forall_not_mem]
  constructor
  · intro h
    by_contra hc
    push_neg at hc
    obtain ⟨⟨r, hr, hrs⟩, s, hs, hss⟩ := hc
    exact h _ ((mem_generate R S _).mpr ⟨r, hr, hrs, s, hs, hss, rfl⟩)
  · intro h x hx
    obtain ⟨r, hr, hrs, s, hs, hss, _⟩ := (mem_generate R S x).mp hx
    rcases h with h | h
    · exact hrs (h r hr)
    · exact hss (h s hs)

/-! ## Claims C2, C3, C7 -/

/-- Claim C2: for all lists `R` and `S`, the result of
`generate_combinations R S` contains exactly the strings
`#` + trimmed root + trimmed suffix, lowercased, over all pairs whose two
sides are non-empty after trimming — every such combination is present and
nothing else is (no omissions, no extras). -/
theorem claim_C2 (R S : List Str) (x : Str) :
    x ∈ generate_combinations R S ↔
      ∃ r ∈ R, strip r ≠ [] ∧ ∃ s ∈ S, strip s ≠ [] ∧
        x = ('#' :: (strip r ++ strip s)).map pyLower :=
  mem_generate R S x

/-- Claim C3: for all lists `R` and `S`, the list returned by
`generate_combinations R S` contains no two equal strings, even when `R`
or `S` contain duplicates or casing variants. -/
theorem claim_C3 (R S : List Str) : (generate_combinations R S).Nodup :=
  nodup_generate R S

/-- Claim C7, counterexample: with the non-empty lists `R = ["a"]` and
`S = [" "]`, `generate_combinations` returns the empty list although not
every entry on *both* sides is whitespace-only (the root `"a"` is not) —
refuting the claim that an empty result is only possible when every entry
on both sides is whitespace-only. -/
theorem claim_C7_counterexample :
    ([['a']] : List Str) ≠ [] ∧ ([[' ']] : List Str) ≠ [] ∧
    generate_combinations [['a']] [[' ']] = [] ∧
    ¬((∀ r ∈ ([['a']] : List Str), strip r = []) ∧
      (∀ s ∈ ([[' ']] : List Str), strip s = [])) := by
  decide

/-- Claim C7 (amended): `generate_combinations R S` returns the empty list
if and only if every entry on at least one side — every root, or every
suffix — is whitespace-only after trimming. -/
theorem claim_C7 (R S : List Str) :
    generate_combinations R S = [] ↔
      (∀ r ∈ R, strip r = []) ∨ (∀ s ∈ S, strip s = []) :=
  generate_eq_nil_iff R S

/-! ## Lemmas about the block partitioner -/

theorem chunksAux_nil (n : Nat) : chunksAux n ([] : List Str) = [] := by
  rw [chunksAux]

theorem chunksAux_cons (n : Nat) (x : Str) (xs : List Str) :
    chunksAux n (x :: xs) =
      (x :: xs).take (n + 1) :: chunksAux n ((x :: xs).drop (n + 1)) := by
  rw [chunksAux]

theorem chunksAux_flatten (n : Nat) (l : List Str) :
    (chunksAux n l).flatten = l := by
  match l with
  | [] => rw [chunksAux_nil]; rfl
  | x :: xs =>
    rw [chunksAux_cons, List.flatten_cons,
        chunksAux_flatten n ((x :: xs).drop (n + 1))]
    exact List.take_append_drop (n + 1) (x :: xs)
termination_by l.length
decreasing_by
  simp [List.drop]
  omega

theorem chunksAux_length_eq (n : Nat) (l : List Str) :
    (chunksAux n l).length = (l.length + n) / (n + 1) := by
  match l with
  | [] =>
    rw [chunksAux_nil]
    simp [Nat.div_eq_of_lt (show n < n + 1 by omega)]
  | x :: xs =>
    rw [chunksAux_cons]
    simp only [List.length_cons]
    rw [chunksAux_length_eq n ((x :: xs).drop (n + 1)), List.length_drop,
        List.length_cons]
    by_cases hL : n ≤ xs.length
    · have h1 : xs.length + 1 - (n + 1) + n = xs.length := by omega
      have h2 : xs.length + 1 + n = xs.length + (n + 1) := by omega
      rw [h1, h2, Nat.add_div_right _ (show 0 < n + 1 by omega)]
    · have h1 : xs.length + 1 - (n + 1) + n = n := by omega
      have h2 : xs.length + 1 + n = xs.length + (n + 1) := by omega
      rw [h1, h2, Nat.add_div_right _ (show 0 < n + 1 by omega),
          Nat.div_eq_of_lt (show n < n + 1 by omega),
          Nat.div_eq_of_lt (show xs.length < n + 1 by omega)]
termination_by l.length
decreasing_by
  simp [List.drop]
  omega

theorem chunksAux_mem_le (n : Nat) (l : List Str) :
    ∀ b ∈ chunksAux n l, b.length ≤ n + 1 := by
  match l with
  | [] => rw [chunksAux_nil]; intro b hb; cases hb
  | x :: xs =>
    rw [chunksAux_cons]
    intro b hb
    rcases List.mem_cons.mp hb with rfl | hb
    · rw [List.length_take]
      omega
    · exact chunksAux_mem_le n ((x :: xs).drop (n + 1)) b hb
termination_by l.length
decreasing_by
  simp [List.drop]
  omega

theorem chunksAux_eq_nil_iff (n : Nat) (l : List Str) :
    chunksAux n l = [] ↔ l = [] := by
  cases l with
  | nil => simp [chunksAux_nil]
  | cons x xs => rw [chunksAux_cons]; simp

theorem chunksAux_dropLast (n : Nat) (l : List Str) :
    ∀ b ∈ (chunksAux n l).dropLast, b.length = n + 1 := by
  match l with
  | [] => rw [chunksAux_nil]; intro b hb; cases hb
  | x :: xs =>
    rw [chunksAux_cons]
    cases hd : chunksAux n ((x :: xs).drop (n + 1)) with
    | nil => intro b hb; cases hb
    | cons c cs =>
      rw [List.dropLast_cons₂]
      intro b hb
      rcases List.mem_cons.mp hb with rfl | hb
      · have hdrop : (x :: xs).drop (n + 1) ≠ [] := by
          intro hnil
          rw [hnil, chunksAux_nil] at hd
          cases hd
        have hlen : n + 1 < (x :: xs).length := by
          by_contra hc
          exact hdrop (List.drop_eq_nil_of_le (by omega))
        rw [List.length_take]
        omega
      · rw [← hd] at hb
        exact chunksAux_dropLast n ((x :: xs).drop (n + 1)) b hb
termination_by l.length
decreasing_by
  simp [List.drop]
  omega

theorem split_into_blocks_pos (l : List Str) (n : Int) (hn : 0 < n) :
    split_into_blocks l n = some (chunksAux (n.toNat - 1) l) := by
  unfold split_into_blocks
  rw [if_neg (by omega), if_neg (by omega)]

theorem chunksAux_of_short (n : Nat) (l : List Str) (hl : l ≠ [])
    (hlen : l.length ≤ n + 1) : chunksAux n l = [l] := by
  cases l with
  | nil => exact absurd rfl hl
  | cons x xs =>
    rw [chunksAux_cons, List.take_of_length_le hlen,
        List.drop_eq_nil_of_le hlen, chunksAux_nil]

theorem split_small (l : List Str) (n : Int) (hl : l ≠ []) (h0 : 0 < n)
    (hlen : l.length ≤ n.toNat) : split_into_blocks l n = some [l] := by
  rw [split_into_blocks_pos l n h0,
      chunksAux_of_short (n.toNat - 1) l hl (by omega)]

/-! ## Claims C4, C10 -/

/-- Claim C4: for every list and every positive `n`, `split_into_blocks`
returns exactly `ceil(L/n)` blocks (zero blocks when the list is empty),
whose concatenation in order is the input list, where every block except
possibly the last has exactly `n` elements and every block has at most
`n`. -/
theorem claim_C4 (items : List Str) (n : Int) (hn : 0 < n) :
    ∃ bs, split_into_blocks items n = some bs ∧
      bs.length = (items.length + n.toNat - 1) / n.toNat ∧
      bs.flatten = items ∧
      (∀ b ∈ bs.dropLast, b.length = n.toNat) ∧
      (∀ b ∈ bs, b.length ≤ n.toNat) := by
  have hpos : 1 ≤ n.toNat := by omega
  refine ⟨chunksAux (n.toNat - 1) items, split_into_blocks_pos items n hn,
    ?_, chunksAux_flatten _ _, ?_, ?_⟩
  · rw [chunksAux_length_eq]
    congr 1 <;> omega
  · intro b hb
    have := chunksAux_dropLast (n.toNat - 1) items b hb
    omega
  · intro b hb
    have := chunksAux_mem_le (n.toNat - 1) items b hb
    omega

/-- Claim C4, witness: a three-element list split into blocks of two gives
two blocks with all asserted properties. -/
theorem claim_C4_witness :
    (0 : Int) < 2 ∧
    ∃ bs, split_into_blocks [['a'], ['b'], ['c']] 2 = some bs ∧
      bs.length = (([['a'], ['b'], ['c']] : List Str).length + (2 : Int).toNat - 1) /
        (2 : Int).toNat ∧
      bs.flatten = [['a'], ['b'], ['c']] ∧
      (∀ b ∈ bs.dropLast, b.length = (2 : Int).toNat) ∧
      (∀ b ∈ bs, b.length ≤ (2 : Int).toNat) :=
  ⟨by decide, claim_C4 [['a'], ['b'], ['c']] 2 (by decide)⟩

/-- Claim C10: `split_into_blocks` does not validate its size: for every
non-empty list and negative size it returns zero blocks (silently dropping
all items), and for size zero it raises (modelled as `none`, for the
`ValueError` thrown by `range` with a zero step). -/
theorem claim_C10 :
    (∀ (l : List Str) (n : Int), n < 0 → l ≠ [] →
      split_into_blocks l n = some []) ∧
    (∀ l : List Str, split_into_blocks l 0 = none) := by
  constructor
  · intro l n hn _
    unfold split_into_blocks
    rw [if_neg (by omega), if_pos hn]
  · intro l
    unfold split_into_blocks
    rw [if_pos rfl]

/-- Claim C10, witness: a singleton list with size `-1` gives zero blocks,
and with size `0` gives the error value. -/
theorem claim_C10_witness :
    split_into_blocks [['a']] (-1) = some [] ∧
    split_into_blocks [['a']] 0 = none :=
  ⟨claim_C10.1 [['a']] (-1) (by decide) (by decide), claim_C10.2 [['a']]⟩

/-! ## Claims C5, C6 -/

/-- Claim C5: parsing the documented example input and generating yields
exactly the four expected unique hashtags (as a set — the model fixes one
insertion order, so set equality is stated as a permutation), and
partitioning them with any block size at least 4 yields exactly one block
containing all four. -/
theorem claim_C5 (n : Int) (hn : 4 ≤ n) :
    ∃ tags : List Str,
      generate_combinations
        (parse_input "Корни: отопление, котел\nСуффиксы: москва, спб".toList).1
        (parse_input "Корни: отопление, котел\nСуффиксы: москва, спб".toList).2 = tags ∧
      tags.Perm ["#отоплениемосква".toList, "#отоплениеспб".toList,
        "#котелмосква".toList, "#котелспб".toList] ∧
      split_into_blocks tags n = some [tags] := by
  have hlen : (generate_combinations
      (parse_input "Корни: отопление, котел\nСуффиксы: москва, спб".toList).1
      (parse_input "Корни: отопление, котел\nСуффиксы: москва, спб".toList).2).length = 4 := by
    decide
  refine ⟨_, rfl, by decide, ?_⟩
  apply split_small
  · intro h
    rw [h] at hlen
    cases hlen
  · omega
  · omega

/-- Claim C5, witness: the statement at block size 30 (the configured
default). -/
theorem claim_C5_witness :
    (4 : Int) ≤ 30 ∧
    ∃ tags : List Str,
      generate_combinations
        (parse_input "Корни: отопление, котел\nСуффиксы: москва, спб".toList).1
        (parse_input "Корни: отопление, котел\nСуффиксы: москва, спб".toList).2 = tags ∧
      tags.Perm ["#отоплениемосква".toList, "#отоплениеспб".toList,
        "#котелмосква".toList, "#котелспб".toList] ∧
      split_into_blocks tags 30 = some [tags] :=
  ⟨by decide, claim_C5 30 (by decide)⟩

/-- Claim C6: for every input string, `parse_input` returns a pair of
lists (the embedding is a total function, mirroring that the Python code
raises no exception), and when a pattern finds no match the corresponding
side is the empty list rather than an error. -/
theorem claim_C6 (text : Str) :
    ∃ r s, parse_input text = (r, s) ∧
      (findRoots (normalize text) = none → r = []) ∧
      (findSuffixes (normalize text) = none → s = []) := by
  refine ⟨_, _, rfl, ?_, ?_⟩ <;> intro h <;> simp [parse_input, h]

/-- Claim C6, witness: an input with no labels parses to two empty lists. -/
theorem claim_C6_witness :
    parse_input "hello".toList = ([], []) := by
  obtain ⟨r, s, heq, h1, h2⟩ := claim_C6 "hello".toList
  rw [heq, h1 (by decide), h2 (by decide)]

/-! ## Lemmas about the downloadable-file layout -/

theorem joinSep_cons_cons {α : Type} (sep : List α) (x y : List α)
    (rest : List (List α)) :
    joinSep sep (x :: y :: rest) = x ++ sep ++ joinSep sep (y :: rest) := rfl

theorem blockjoin (ps : List (Nat × List Str)) :
    joinSep ['\n', '\n'] (ps.map fun p => blockSection p.1 p.2) =
    joinSep ['\n'] (joinSep [[]]
      (ps.map fun p => ["Блок ".toList ++ natToChars p.1 ++ [':'], format_block p.2])) := by
  induction ps with
  | nil => rfl
  | cons p ps ih =>
    cases ps with
    | nil => simp [blockSection, joinSep, List.append_assoc]
    | cons q ps' =>
      simp only [List.map_cons] at ih ⊢
      rw [joinSep_cons_cons ['\n', '\n'], ih, joinSep_cons_cons [[]]]
      have hcons : ∃ e E', joinSep [[]]
          (["Блок ".toList ++ natToChars q.1 ++ [':'], format_block q.2] ::
            ps'.map fun p => ["Блок ".toList ++ natToChars p.1 ++ [':'], format_block p.2]) =
          ("Блок ".toList ++ natToChars q.1 ++ [':']) :: e :: E' := by
        cases ps' <;> exact ⟨_, _, rfl⟩
      obtain ⟨e, E', hE⟩ := hcons
      rw [hE]
      simp [blockSection, joinSep, List.append_assoc]

theorem joinSep_blank_ne_nil (q : Nat × List Str) (ps : List (Nat × List Str)) :
    joinSep [[]] ((q :: ps).map fun p =>
      ["Блок ".toList ++ natToChars p.1 ++ [':'], format_block p.2]) ≠ [] := by
  cases ps <;> simp [joinSep]

theorem joinSep_headerlines (A B C D e : Str) (E' : List Str) :
    joinSep ['\n'] ([A, B, C, D, []] ++ e :: E') =
      A ++ '\n' :: (B ++ '\n' :: (C ++ '\n' :: (D ++ '\n' :: '\n' ::
        joinSep ['\n'] (e :: E')))) := by
  simp [joinSep, List.append_assoc]

/-! ## Claim C8 -/

/-- Claim C8, counterexample: the downloadable file writes the Russian
block header `Блок <i>:`, not the literal `Block <i>:` asserted by the
claim's byte-exact layout: at a concrete one-block input the content
differs from the claimed layout. -/
theorem claim_C8_counterexample :
    file_content [['a']] [['b']] [['#', 'a', 'b']] [[['#', 'a', 'b']]] ≠
      joinSep ['\n'] (specFileLinesEn [['a']] [['b']] [['#', 'a', 'b']]
        [[['#', 'a', 'b']]]) := by
  decide

/-- Claim C8 (amended): for every non-empty roots list, suffixes list and
block sequence, the downloadable file content consists of, in order: a
header line with the total hashtag count, a line listing the roots
comma-joined, a line listing the suffixes comma-joined, a separator line
of exactly forty `=` characters, a blank line, then for each block in
order a line `Блок <i>:` followed by the block's formatted hashtag
string, with exactly one blank line between consecutive blocks. -/
theorem claim_C8 (roots suffixes hashtags : List Str) (blocks : List (List Str))
    (_hr : roots ≠ []) (_hs : suffixes ≠ []) (hb : blocks ≠ []) :
    file_content roots suffixes hashtags blocks =
      joinSep ['\n'] (specFileLines roots suffixes hashtags blocks) := by
  obtain ⟨b, bs, rfl⟩ : ∃ b bs, blocks = b :: bs := by
    cases blocks with
    | nil => exact absurd rfl hb
    | cons b bs => exact ⟨b, bs, rfl⟩
  unfold file_content specFileLines all_hashtags_text
  rw [blockjoin]
  simp only [List.enumFrom]
  cases hE : joinSep [[]] (((1, b) :: bs.enumFrom 2).map fun p =>
      ["Блок ".toList ++ natToChars p.1 ++ [':'], format_block p.2]) with
  | nil => exact absurd hE (joinSep_blank_ne_nil (1, b) (bs.enumFrom 2))
  | cons e E' =>
    rw [joinSep_headerlines]
    simp [List.append_assoc]

/-- Claim C8, witness: the amended layout equality at a concrete one-block
input. -/
theorem claim_C8_witness :
    file_content [['a']] [['b']] [['#', 'a', 'b']] [[['#', 'a', 'b']]] =
      joinSep ['\n'] (specFileLines [['a']] [['b']] [['#', 'a', 'b']]
        [[['#', 'a', 'b']]]) :=
  claim_C8 [['a']] [['b']] [['#', 'a', 'b']] [[['#', 'a', 'b']]]
    (by decide) (by decide) (by decide)

/-! ## Lemmas about stripping and tokenization -/

theorem head_dropWhile_not (p : Char → Bool) (l : Str) :
    ∀ {c : Char} {r : Str}, l.dropWhile p = c :: r → p c = false := by
  induction l with
  | nil => intro c r h; cases h
  | cons a as ih =>
    intro c r h
    rw [List.dropWhile_cons] at h
    split at h
    · exact ih h
    · next ha =>
      cases h
      simpa using ha

theorem dropWhile_of_head_false {p : Char → Bool} {c : Char} (h : p c = false)
    (r : Str) : (c :: r).dropWhile p = c :: r := by
  simp [List.dropWhile_cons, h]

theorem dropWhile_idem (p : Char → Bool) (l : Str) :
    (l.dropWhile p).dropWhile p = l.dropWhile p := by
  cases h : l.dropWhile p with
  | nil => rfl
  | cons c r => exact dropWhile_of_head_false (head_dropWhile_not p l h) r

theorem lstrip_idem (l : Str) : lstrip (lstrip l) = lstrip l :=
  dropWhile_idem pyIsSpace l

theorem rstrip_idem (m : Str) : rstrip (rstrip m) = rstrip m := by
  unfold rstrip
  rw [List.reverse_reverse, dropWhile_idem]

theorem rstrip_append_eq (m : Str) :
    rstrip m ++ (m.reverse.takeWhile pyIsSpace).reverse = m := by
  unfold rstrip
  rw [← List.reverse_append, List.takeWhile_append_dropWhile, List.reverse_reverse]

theorem lstrip_rstrip_lstrip (m : Str) :
    lstrip (rstrip (lstrip m)) = rstrip (lstrip m) := by
  cases h : rstrip (lstrip m) with
  | nil => rfl
  | cons c r =>
    have hm := rstrip_append_eq (lstrip m)
    rw [h] at hm
    have hc : pyIsSpace c = false := by
      apply head_dropWhile_not pyIsSpace m (r := r ++ ((lstrip m).reverse.takeWhile pyIsSpace).reverse)
      rw [← List.cons_append, hm]
      rfl
    exact dropWhile_of_head_false hc r

theorem strip_idem (l : Str) : strip (strip l) = strip l := by
  unfold strip
  rw [lstrip_rstrip_lstrip, rstrip_idem]

theorem mem_tokensOf {x seg : Str} (h : x ∈ tokensOf seg) :
    x ≠ [] ∧ strip x = x := by
  unfold tokensOf at h
  rw [List.mem_filter] at h
  obtain ⟨hmem, hne⟩ := h
  rw [List.mem_map] at hmem
  obtain ⟨y, _, rfl⟩ := hmem
  exact ⟨by simpa [List.isEmpty_iff] using hne, strip_idem y⟩

theorem mem_parse_fst {text x : Str} (h : x ∈ (parse_input text).1) :
    x ≠ [] ∧ strip x = x := by
  unfold parse_input at h
  cases hf : findRoots (normalize text) with
  | none => simp [hf] at h
  | some cap =>
    simp only [hf] at h
    exact mem_tokensOf h

theorem mem_parse_snd {text x : Str} (h : x ∈ (parse_input text).2) :
    x ≠ [] ∧ strip x = x := by
  unfold parse_input at h
  cases hf : findSuffixes (normalize text) with
  | none => simp [hf] at h
  | some cap =>
    simp only [hf] at h
    exact mem_tokensOf h

/-! ## Claim C9 -/

/-- Claim C9: every entry of both lists returned by `parse_input` is
non-empty and equal to its own trim; consequently the generator's
skip-empty branches never fire on parser output, and
`generate_combinations` of the parser output is empty exactly when one of
the two lists is itself empty. -/
theorem claim_C9 (text : Str) :
    (∀ x ∈ (parse_input text).1, x ≠ [] ∧ strip x = x) ∧
    (∀ x ∈ (parse_input text).2, x ≠ [] ∧ strip x = x) ∧
    (generate_combinations (parse_input text).1 (parse_input text).2 = [] ↔
      (parse_input text).1 = [] ∨ (parse_input text).2 = []) := by
  refine ⟨fun x hx => mem_parse_fst hx, fun x hx => mem_parse_snd hx, ?_⟩
  rw [generate_eq_nil_iff]
  constructor
  · rintro (h | h)
    · left
      cases hr : (parse_input text).1 with
      | nil => rfl
      | cons a as =>
        have hmem : a ∈ (parse_input text).1 := by
          rw [hr]
          exact List.mem_cons_self a as
        have h1 := mem_parse_fst hmem
        have h2 := h a hmem
        rw [h1.2] at h2
        exact absurd h2 h1.1
    · right
      cases hs : (parse_input text).2 with
      | nil => rfl
      | cons a as =>
        have hmem : a ∈ (parse_input text).2 := by
          rw [hs]
          exact List.mem_cons_self a as
        have h1 := mem_parse_snd hmem
        have h2 := h a hmem
        rw [h1.2] at h2
        exact absurd h2 h1.1
  · rintro (h | h)
    · left
      intro r hr'
      rw [h] at hr'
      cases hr'
    · right
      intro s hs'
      rw [h] at hs'
      cases hs'

/-! ## Character-class lemmas for the parser -/

theorem pyLower_eq_self {c : Char} (h1 : ¬(0x41 ≤ c.toNat ∧ c.toNat ≤ 0x5a))
    (h2 : ¬(0x410 ≤ c.toNat ∧ c.toNat ≤ 0x42f)) (h3 : c.toNat ≠ 0x401) :
    pyLower c = c := by
  unfold pyLower
  rw [if_neg (by simpa using h1), if_neg (by simpa using h2),
    if_neg (by simpa using h3)]

theorem pyIsSpace_ranges {c : Char} (h : pyIsSpace c = true) :
    ¬(0x41 ≤ c.toNat ∧ c.toNat ≤ 0x5a) ∧ ¬(0x410 ≤ c.toNat ∧ c.toNat ≤ 0x42f) ∧
    c.toNat ≠ 0x401 := by
  simp only [pyIsSpace, Bool.or_eq_true, Bool.and_eq_true, decide_eq_true_eq,
    beq_iff_eq] at h
  omega

theorem pyLower_of_space {c : Char} (h : pyIsSpace c = true) : pyLower c = c := by
  obtain ⟨h1, h2, h3⟩ := pyIsSpace_ranges h
  exact pyLower_eq_self h1 h2 h3

theorem stripLabel_cons_first {p : Char} {ps : Str} {c : Char} {cs r : Str}
    (h : stripLabel (p :: ps) (c :: cs) = some r) : pyLower c = p := by
  unfold stripLabel at h
  split at h
  · next heq => simpa using heq
  · cases h

theorem occSuffixAt_nil : occSuffixAt [] = false := by decide

theorem occ_head_nonspace {c : Char} {r : Str} (h : occSuffixAt (c :: r) = true) :
    pyIsSpace c = false := by
  by_contra hcon
  rw [Bool.not_eq_false] at hcon
  have hl := pyLower_of_space hcon
  unfold occSuffixAt at h
  cases h1 : stripLabel suffRu (c :: r) with
  | some l2 =>
    have hcc := stripLabel_cons_first (show stripLabel ('с' :: ['у', 'ф', 'ф', 'и', 'к', 'с', 'ы']) (c :: r) = some l2 from h1)
    rw [hl] at hcc
    rw [hcc] at hcon
    exact absurd hcon (by decide)
  | none =>
    rw [h1] at h
    cases h2 : stripLabel suffEn (c :: r) with
    | some l2 =>
      have hcc := stripLabel_cons_first (show stripLabel ('s' :: ['u', 'f', 'f', 'i', 'x', 'e', 's']) (c :: r) = some l2 from h2)
      rw [hl] at hcc
      rw [hcc] at hcon
      exact absurd hcon (by decide)
    | none =>
      rw [h2] at h
      cases h

/-! ## Lemmas about the segment boundary (takeUntil / dropUntil) -/

theorem takeUntil_append_dropUntil (l : Str) :
    takeUntilSuffOcc l ++ dropUntilSuffOcc l = l := by
  induction l with
  | nil => rfl
  | cons c rest ih =>
    unfold takeUntilSuffOcc dropUntilSuffOcc
    by_cases h : occSuffixAt (c :: rest) = true
    · rw [if_pos h, if_pos h]
      rfl
    · rw [if_neg h, if_neg h, List.cons_append, ih]

theorem dropUntil_occ (l : Str) :
    dropUntilSuffOcc l = [] ∨ occSuffixAt (dropUntilSuffOcc l) = true := by
  induction l with
  | nil => exact Or.inl rfl
  | cons c rest ih =>
    unfold dropUntilSuffOcc
    by_cases h : occSuffixAt (c :: rest) = true
    · rw [if_pos h]
      exact Or.inr h
    · rw [if_neg h]
      exact ih

theorem no_occ_inside (l : Str) : ∀ y z : Str, takeUntilSuffOcc l = y ++ z →
    z ≠ [] → occSuffixAt (z ++ dropUntilSuffOcc l) = false := by
  induction l with
  | nil =>
    intro y z h hz
    unfold takeUntilSuffOcc at h
    rw [eq_comm, List.append_eq_nil] at h
    exact absurd h.2 hz
  | cons c rest ih =>
    intro y z h hz
    unfold takeUntilSuffOcc at h
    unfold dropUntilSuffOcc
    by_cases hocc : occSuffixAt (c :: rest) = true
    · rw [if_pos hocc] at h
      rw [eq_comm, List.append_eq_nil] at h
      exact absurd h.2 hz
    · rw [if_neg hocc] at h ⊢
      cases y with
      | nil =>
        rw [List.nil_append] at h
        rw [← h, List.cons_append, takeUntil_append_dropUntil]
        simpa using hocc
      | cons a y' =>
        rw [List.cons_append] at h
        injection h with h1 h2
        exact ih y' z h2 hz

/-! ## Lemmas about the lazy capture group -/

theorem lookaheadOk_nil : lookaheadOk [] = true := by decide

theorem lazyCapture_complete : ∀ (core tl : Str), core ≠ [] → ':' ∉ core →
    lookaheadOk tl = true →
    (∀ y z : Str, core = y ++ z → y ≠ [] → z ≠ [] → lookaheadOk (z ++ tl) = false) →
    lazyCapture (core ++ tl) = some core := by
  intro core
  induction core with
  | nil =>
    intro tl h
    exact absurd rfl h
  | cons c cs ih =>
    intro tl _ hc hla hin
    have hcne : c ≠ ':' := fun hceq => hc (by rw [hceq]; exact List.mem_cons_self ':' cs)
    rw [List.cons_append]
    cases cs with
    | nil =>
      rw [List.nil_append]
      unfold lazyCapture
      rw [if_neg hcne, if_pos hla]
    | cons c2 cs' =>
      have hlf : lookaheadOk (c2 :: (cs' ++ tl)) = false := by
        have := hin [c] (c2 :: cs') rfl (by simp) (by simp)
        rwa [List.cons_append] at this
      unfold lazyCapture
      rw [if_neg hcne, if_neg (by simp [hlf]),
        ih tl (by simp) (fun h => hc (List.mem_cons_of_mem _ h)) hla
          (fun y z hyz hy hz => hin (c :: y) z (by rw [List.cons_append, ← hyz]) (by simp) hz)]
      rfl

/-! ## Lemmas about dropWhile over appends -/

theorem dropWhile_append_all {p : Char → Bool} {l₁ : Str}
    (h : ∀ c ∈ l₁, p c = true) (l₂ : Str) :
    (l₁ ++ l₂).dropWhile p = l₂.dropWhile p := by
  induction l₁ with
  | nil => rfl
  | cons a l ih =>
    rw [List.cons_append, List.dropWhile_cons, if_pos (h a (List.mem_cons_self a l))]
    exact ih (fun c hc => h c (List.mem_cons_of_mem a hc))

theorem dropWhile_append_ne {p : Char → Bool} {l₁ : Str}
    (h : l₁.dropWhile p ≠ []) (l₂ : Str) :
    (l₁ ++ l₂).dropWhile p = l₁.dropWhile p ++ l₂ := by
  induction l₁ with
  | nil => exact absurd rfl h
  | cons a l ih =>
    by_cases ha : p a = true
    · have h' : l.dropWhile p ≠ [] := by
        rwa [List.dropWhile_cons, if_pos ha] at h
      rw [List.cons_append, List.dropWhile_cons, List.dropWhile_cons,
        if_pos ha, if_pos ha]
      exact ih h'
    · rw [Bool.not_eq_true] at ha
      rw [List.cons_append, List.dropWhile_cons, List.dropWhile_cons,
        if_neg (by simp [ha]), if_neg (by simp [ha]), List.cons_append]

/-! ## Lemmas about the no-trailing-whitespace invariant -/

theorem endsOk_suffix {s l : Str} (hs : s <:+ l) (h : endsOk l = true) :
    endsOk s = true := by
  obtain ⟨pre, rfl⟩ := hs
  cases s with
  | nil => rfl
  | cons c r =>
    unfold endsOk at h ⊢
    rwa [List.getLast?_append_of_ne_nil pre (by simp)] at h

theorem endsOk_rstrip (m : Str) : endsOk (rstrip m) = true := by
  unfold rstrip endsOk
  rw [List.getLast?_reverse]
  cases hd : m.reverse.dropWhile pyIsSpace with
  | nil => rfl
  | cons c r => simp [head_dropWhile_not pyIsSpace m.reverse hd]

theorem endsOk_cons_ne {c : Char} {X : Str} (hX : X ≠ []) :
    endsOk (c :: X) = endsOk X := by
  unfold endsOk
  rw [show c :: X = [c] ++ X from rfl, List.getLast?_append_of_ne_nil [c] hX]

theorem collapseAux_endsOk : ∀ (l : Str) (b : Bool), endsOk l = true →
    endsOk (collapseAux b l) = true ∧ (collapseAux b l = [] ↔ l = []) := by
  intro l
  induction l with
  | nil =>
    intro b _
    exact ⟨rfl, by simp [collapseAux]⟩
  | cons c rest ih =>
    intro b hend
    by_cases hc : pyIsSpace c = true
    · have hrne : rest ≠ [] := by
        intro hnil
        subst hnil
        unfold endsOk at hend
        simp [hc] at hend
      have hrend : endsOk rest = true := by rwa [endsOk_cons_ne hrne] at hend
      have ihr := ih true hrend
      have hKne : collapseAux true rest ≠ [] := fun hnil => hrne (ihr.2.mp hnil)
      unfold collapseAux
      rw [if_pos hc]
      cases b with
      | true =>
        simp only [if_true]
        exact ⟨ihr.1, iff_of_false hKne (by simp)⟩
      | false =>
        simp only [Bool.false_eq_true, if_false]
        refine ⟨?_, iff_of_false (by simp) (by simp)⟩
        rw [endsOk_cons_ne hKne]
        exact ihr.1
    · unfold collapseAux
      rw [if_neg hc]
      cases hr : rest with
      | nil =>
        subst hr
        refine ⟨?_, iff_of_false (by simp) (by simp)⟩
        rw [Bool.not_eq_true] at hc
        simp [collapseAux, endsOk, hc]
      | cons a as =>
        rw [← hr]
        have hrne : rest ≠ [] := by rw [hr]; simp
        have hrend : endsOk rest = true := by rwa [endsOk_cons_ne hrne] at hend
        have ihr := ih false hrend
        have hKne : collapseAux false rest ≠ [] := fun hnil => hrne (ihr.2.mp hnil)
        refine ⟨?_, iff_of_false (by simp) (by simp)⟩
        rw [endsOk_cons_ne hKne]
        exact ihr.1

theorem normalize_endsOk (t : Str) : endsOk (normalize t) = true := by
  have h1 : endsOk (strip t) = true := endsOk_rstrip (lstrip t)
  exact (collapseAux_endsOk (strip t) false h1).1

/-! ## The main parser lemmas for claim C1 -/

theorem stripLabel_suffix : ∀ (lab l r : Str), stripLabel lab l = some r → r <:+ l := by
  intro lab
  induction lab with
  | nil =>
    intro l r h
    unfold stripLabel at h
    injection h with h
    exact h ▸ List.suffix_refl l
  | cons p ps ih =>
    intro l r h
    cases l with
    | nil => cases h
    | cons c cs =>
      unfold stripLabel at h
      split at h
      · exact (ih cs r h).trans (List.suffix_cons c cs)
      · cases h

theorem rootsTail_suffix {l l1 : Str} (h : rootsTail l = some l1) : l1 <:+ l := by
  unfold rootsTail at h
  cases h1 : stripLabel rootsRu l with
  | some r =>
    rw [h1] at h
    injection h with h
    exact h ▸ stripLabel_suffix _ _ _ h1
  | none =>
    rw [h1] at h
    exact stripLabel_suffix _ _ _ h

theorem dropWhile_ne_nil_of_endsOk {z : Str} (hz : z ≠ []) (hend : endsOk z = true) :
    z.dropWhile pyIsSpace ≠ [] := by
  rw [Ne, List.dropWhile_eq_nil_iff]
  intro hall
  have hsp := hall _ (List.getLast_mem hz)
  unfold endsOk at hend
  rw [List.getLast?_eq_getLast z hz] at hend
  simp [hsp] at hend

theorem trail_nil_of_endsOk {seg : Str} (h : endsOk seg = true) :
    ((lstrip seg).reverse.takeWhile pyIsSpace).reverse = [] := by
  cases htr : ((lstrip seg).reverse.takeWhile pyIsSpace).reverse with
  | nil => rfl
  | cons a as =>
    exfalso
    have hseg_eq : seg = (seg.takeWhile pyIsSpace ++ strip seg) ++
        ((lstrip seg).reverse.takeWhile pyIsSpace).reverse := by
      rw [List.append_assoc]
      rw [show strip seg ++ ((lstrip seg).reverse.takeWhile pyIsSpace).reverse = lstrip seg
        from rstrip_append_eq (lstrip seg)]
      exact (List.takeWhile_append_dropWhile pyIsSpace seg).symm
    have hlast : seg.getLast? = (a :: as).getLast? := by
      conv_lhs => rw [hseg_eq, htr]
      rw [List.getLast?_append_of_ne_nil _ (by simp)]
    have hsp : pyIsSpace ((a :: as).getLast (by simp)) = true := by
      have hmem : (a :: as).getLast (by simp) ∈
          ((lstrip seg).reverse.takeWhile pyIsSpace).reverse := by
        rw [htr]
        exact List.getLast_mem (by simp)
      rw [List.mem_reverse] at hmem
      exact List.mem_takeWhile_imp hmem
    unfold endsOk at h
    rw [hlast, List.getLast?_eq_getLast (a :: as) (by simp)] at h
    simp [hsp] at h

theorem lazyCapture_dropWhile {l3 : Str} (hend3 : endsOk l3 = true)
    (hcol : ':' ∉ takeUntilSuffOcc l3) (hns : strip (takeUntilSuffOcc l3) ≠ []) :
    lazyCapture (l3.dropWhile pyIsSpace) = some (strip (takeUntilSuffOcc l3)) := by
  obtain ⟨seg, hseg'⟩ : ∃ s, takeUntilSuffOcc l3 = s := ⟨_, rfl⟩
  obtain ⟨tail, htail'⟩ : ∃ t, dropUntilSuffOcc l3 = t := ⟨_, rfl⟩
  rw [hseg'] at hcol hns ⊢
  have hTD : seg ++ tail = l3 := by
    rw [← hseg', ← htail']
    exact takeUntil_append_dropUntil l3
  rw [← hTD] at hend3 ⊢
  obtain ⟨lead, hlead'⟩ : ∃ x, seg.takeWhile pyIsSpace = x := ⟨_, rfl⟩
  obtain ⟨mid, hmid'⟩ : ∃ m, lstrip seg = m := ⟨_, rfl⟩
  obtain ⟨core, hcore'⟩ : ∃ c, strip seg = c := ⟨_, rfl⟩
  obtain ⟨trail, htrail'⟩ : ∃ tr, (mid.reverse.takeWhile pyIsSpace).reverse = tr := ⟨_, rfl⟩
  rw [hcore'] at hns ⊢
  have hsplit1 : lead ++ mid = seg := by
    rw [← hlead', ← hmid']
    exact List.takeWhile_append_dropWhile pyIsSpace seg
  have hsplit2 : core ++ trail = mid := by
    rw [← hcore', ← htrail', ← hmid']
    exact rstrip_append_eq (lstrip seg)
  have hcolcore : ':' ∉ core := by
    intro hx
    apply hcol
    rw [← hsplit1, ← hsplit2]
    exact List.mem_append_right _ (List.mem_append_left _ hx)
  have hleadsp : ∀ x ∈ lead, pyIsSpace x = true := by
    intro x hx
    rw [← hlead'] at hx
    exact List.mem_takeWhile_imp hx
  have htrailsp : ∀ x ∈ trail, pyIsSpace x = true := by
    intro x hx
    rw [← htrail', List.mem_reverse] at hx
    exact List.mem_takeWhile_imp hx
  have hcore_ends : endsOk core = true := by
    rw [← hcore']
    exact endsOk_rstrip (lstrip seg)
  obtain ⟨c0, cr, hcore_eq⟩ : ∃ c0 cr, core = c0 :: cr := by
    cases core with
    | nil => exact absurd rfl hns
    | cons c0 cr => exact ⟨c0, cr, rfl⟩
  have hmid_eq : mid = c0 :: (cr ++ trail) := by
    rw [← hsplit2, hcore_eq, List.cons_append]
  have hc0 : pyIsSpace c0 = false := by
    apply head_dropWhile_not pyIsSpace seg (r := cr ++ trail)
    show lstrip seg = _
    rw [hmid', hmid_eq]
  -- the maximal munch lands exactly at the head of the trimmed segment
  have hdw : (seg ++ tail).dropWhile pyIsSpace = core ++ (trail ++ tail) := by
    rw [← hsplit1, List.append_assoc, dropWhile_append_all hleadsp, hmid_eq,
      List.cons_append, dropWhile_of_head_false hc0, hcore_eq]
    simp only [List.cons_append, List.append_assoc]
  -- the lookahead holds right after the trimmed segment
  have htail_cases : tail = [] ∨ occSuffixAt tail = true := by
    rw [← htail']
    exact dropUntil_occ l3
  have hlatl : lookaheadOk (trail ++ tail) = true := by
    rcases htail_cases with htnil | hocc
    · -- no suffixes occurrence: the segment runs to the end of the text,
      -- which has no trailing whitespace, so the trail is empty and the
      -- end-of-string alternative of the lookahead fires
      have hsegend : endsOk seg = true := by
        rw [htnil, List.append_nil] at hend3
        exact hend3
      have htrnil : trail = [] := by
        have h0 := trail_nil_of_endsOk hsegend
        rw [hmid', htrail'] at h0
        exact h0
      rw [htrnil, htnil]
      exact lookaheadOk_nil
    · obtain ⟨t0, trest, htail_eq⟩ : ∃ t0 trest, tail = t0 :: trest := by
        cases tail with
        | nil =>
          rw [occSuffixAt_nil] at hocc
          cases hocc
        | cons t0 trest => exact ⟨t0, trest, rfl⟩
      have ht0 : pyIsSpace t0 = false := occ_head_nonspace (htail_eq ▸ hocc)
      unfold lookaheadOk
      rw [dropWhile_append_all htrailsp, htail_eq, dropWhile_of_head_false ht0,
        ← htail_eq, hocc]
      rfl
  -- strictly inside the trimmed segment the lookahead always fails
  have hinside : ∀ y z : Str, core = y ++ z → y ≠ [] → z ≠ [] →
      lookaheadOk (z ++ (trail ++ tail)) = false := by
    intro y z hyz hy hz
    have hzsuf : z <:+ core := ⟨y, hyz.symm⟩
    have hzend : endsOk z = true := endsOk_suffix hzsuf hcore_ends
    have hzdw : z.dropWhile pyIsSpace ≠ [] := dropWhile_ne_nil_of_endsOk hz hzend
    have hz_split : z = z.takeWhile pyIsSpace ++ z.dropWhile pyIsSpace :=
      (List.takeWhile_append_dropWhile pyIsSpace z).symm
    have hsegsplit : takeUntilSuffOcc l3 =
        (lead ++ y ++ z.takeWhile pyIsSpace) ++ (z.dropWhile pyIsSpace ++ trail) := by
      rw [hseg', ← hsplit1, ← hsplit2, hyz]
      conv_lhs => rw [hz_split]
      simp only [List.append_assoc]
    have hocz : occSuffixAt ((z.dropWhile pyIsSpace ++ trail) ++ tail) = false := by
      have h0 := no_occ_inside l3 (lead ++ y ++ z.takeWhile pyIsSpace)
        (z.dropWhile pyIsSpace ++ trail) hsegsplit
        (by
          intro hnil
          rw [List.append_eq_nil] at hnil
          exact hzdw hnil.1)
      rw [htail'] at h0
      exact h0
    unfold lookaheadOk
    rw [dropWhile_append_ne hzdw,
      show z.dropWhile pyIsSpace ++ (trail ++ tail) =
        (z.dropWhile pyIsSpace ++ trail) ++ tail from (List.append_assoc _ _ _).symm,
      hocz]
    simp [List.isEmpty_iff, hz]
  rw [hdw]
  exact lazyCapture_complete core (trail ++ tail) hns hcolcore hlatl hinside

theorem endsOk_tail {c : Char} {r : Str} (h : endsOk (c :: r) = true) :
    endsOk r = true := by
  cases r with
  | nil => rfl
  | cons a as => rwa [endsOk_cons_ne (by simp)] at h

theorem afterLabel_none {l1 : Str} (h : specAfterLabel l1 = none) :
    afterLabel l1 = none := by
  unfold specAfterLabel at h
  unfold afterLabel
  cases hdw : l1.dropWhile pyIsSpace with
  | nil => rfl
  | cons c l3 =>
    simp only [hdw] at h
    show (if c = ':' then afterColon l3 else none) = none
    by_cases hc : c = ':'
    · rw [if_pos hc] at h
      cases h
    · rw [if_neg hc]

theorem afterLabel_some {l1 seg : Str} (hend1 : endsOk l1 = true)
    (h : specAfterLabel l1 = some seg) (hcol : ':' ∉ seg) (hns : strip seg ≠ []) :
    afterLabel l1 = some (strip seg) := by
  unfold specAfterLabel at h
  unfold afterLabel
  cases hdw : l1.dropWhile pyIsSpace with
  | nil =>
    simp only [hdw] at h
    cases h
  | cons c l3 =>
    simp only [hdw] at h
    show (if c = ':' then afterColon l3 else none) = some (strip seg)
    by_cases hc : c = ':'
    · rw [if_pos hc] at h ⊢
      injection h with hseg
      subst hseg
      have hsufl3 : l3 <:+ l1 := by
        have h1 : (c :: l3) <:+ l1 := by
          rw [← hdw]
          exact List.dropWhile_suffix pyIsSpace
        exact (List.suffix_cons c l3).trans h1
      have hend3 : endsOk l3 = true := endsOk_suffix hsufl3 hend1
      unfold afterColon
      rw [lazyCapture_dropWhile hend3 hcol hns]
    · rw [if_neg hc] at h
      cases h

theorem specMatch_none {l : Str} (h : specMatchRootsAt l = none) :
    matchRootsAt l = none := by
  unfold specMatchRootsAt at h
  unfold matchRootsAt
  cases hrt : rootsTail l with
  | none => rfl
  | some l1 =>
    simp only [hrt] at h
    show afterLabel l1 = none
    exact afterLabel_none h

theorem specMatch_some {l seg : Str} (hend : endsOk l = true)
    (h : specMatchRootsAt l = some seg) (hcol : ':' ∉ seg) (hns : strip seg ≠ []) :
    matchRootsAt l = some (strip seg) := by
  unfold specMatchRootsAt at h
  unfold matchRootsAt
  cases hrt : rootsTail l with
  | none =>
    simp only [hrt] at h
    cases h
  | some l1 =>
    simp only [hrt] at h
    show afterLabel l1 = some (strip seg)
    exact afterLabel_some (endsOk_suffix (rootsTail_suffix hrt) hend) h hcol hns

theorem findRoots_spec_none : ∀ l : Str, specRootsSegment l = none →
    findRoots l = none := by
  intro l
  induction l with
  | nil => intro _; rfl
  | cons c rest ih =>
    intro h
    unfold specRootsSegment at h
    unfold findRoots
    cases hm : specMatchRootsAt (c :: rest) with
    | some seg =>
      simp only [hm] at h
      cases h
    | none =>
      simp only [hm] at h
      rw [specMatch_none hm]
      exact ih h

theorem findRoots_spec_some : ∀ l seg : Str, endsOk l = true →
    specRootsSegment l = some seg → ':' ∉ seg → strip seg ≠ [] →
    findRoots l = some (strip seg) := by
  intro l
  induction l with
  | nil =>
    intro seg _ h
    cases h
  | cons c rest ih =>
    intro seg hend h hcol hns
    unfold specRootsSegment at h
    unfold findRoots
    cases hm : specMatchRootsAt (c :: rest) with
    | some seg0 =>
      simp only [hm, Option.some.injEq] at h
      subst h
      rw [specMatch_some hend hm hcol hns]
    | none =>
      simp only [hm] at h
      rw [specMatch_none hm]
      exact ih seg (endsOk_tail hend) h hcol hns

theorem tokensOf_strip (seg : Str) : tokensOf (strip seg) = tokensOf seg := by
  unfold tokensOf
  rw [strip_idem]

/-! ## Claim C1 -/

/-- Claim C1, counterexample: for the input `"roots: a:b"` the claim's
capture rule produces the segment `" a:b"` (all text after the colon up
to the end) and hence the token `"a:b"`, but `parse_input` returns the
empty roots list: the regex group `[^:]+?` cannot cross the second colon,
so the pattern does not match at all. -/
theorem claim_C1_counterexample :
    specRootsSegment (normalize "roots: a:b".toList) = some [' ', 'a', ':', 'b'] ∧
    tokensOf [' ', 'a', ':', 'b'] = [['a', ':', 'b']] ∧
    (parse_input "roots: a:b".toList).1 = [] := by
  decide

/-- Claim C1 (amended): for every input string whose first
roots-label-plus-colon occurrence (in the whitespace-normalized text)
captures a segment — all text after the colon up to the next
suffixes-label-plus-colon occurrence or the end — that contains no colon
and at least one non-whitespace character, `parse_input` returns exactly
the tokens of that segment as roots; and when no roots label followed by
a colon is present, the roots list is empty. -/
theorem claim_C1 (text : Str) :
    (∀ seg, specRootsSegment (normalize text) = some seg → ':' ∉ seg →
      strip seg ≠ [] → (parse_input text).1 = tokensOf seg) ∧
    (specRootsSegment (normalize text) = none → (parse_input text).1 = []) := by
  constructor
  · intro seg hspec hcol hns
    have hfr := findRoots_spec_some (normalize text) seg (normalize_endsOk text)
      hspec hcol hns
    unfold parse_input
    dsimp only
    rw [hfr, ← tokensOf_strip]
  · intro hspec
    have hfr := findRoots_spec_none (normalize text) hspec
    unfold parse_input
    dsimp only
    rw [hfr]

/-- Claim C1, witness: for `"Roots: a, b Suffixes: x"` the specified
segment is `" a, b "`, its hypotheses hold, and the parsed roots are its
tokens `["a", "b"]`. -/
theorem claim_C1_witness :
    specRootsSegment (normalize "Roots: a, b Suffixes: x".toList) =
      some [' ', 'a', ',', ' ', 'b', ' '] ∧
    (parse_input "Roots: a, b Suffixes: x".toList).1 =
      tokensOf [' ', 'a', ',', ' ', 'b', ' '] :=
  ⟨by decide, (claim_C1 "Roots: a, b Suffixes: x".toList).1
    [' ', 'a', ',', ' ', 'b', ' '] (by decide) (by decide) (by decide)⟩

end Chatbot
